import Mathlib

/-!
Verification of the perceptual color engine of the palette-extractor
repository (src/core/color_ops.py, src/core/extractor.py).

Conventions of the embedding:
* Python machine floats are modelled as real numbers (`ℝ`); integer-valued
  channel data is modelled as `ℚ`, `ℤ` or `ℕ` as appropriate; Python strings
  are `List Char` or `String`.
* Pure functions of the source are translated one-to-one; each definition
  carries a comment naming the source function it embeds.
* Calls into external libraries (OpenCV, numpy primitives) are modelled from
  the libraries' documented behaviour; each such spot is flagged in the
  corresponding doc comment.

The file is laid out with all definitions first, then the lemmas and the
claim theorems.
-/

namespace ColorOps

/-! ### Part 1: definitions -/

/-! #### Accessibility helpers (color_ops.py lines 145-166) -/

/-- Embeds `_srgb_to_lin` (color_ops.py line 145).  The source first rescales
the channel by `c = c / 255.0` and then tests `c <= 0.04045 * 255` — the
threshold is NOT rescaled, which the theorems below exploit.  The `** 2.4`
power of the unreachable second branch is modelled by `Real.rpow`. -/
noncomputable def srgb_to_lin (c : ℚ) : ℝ :=
  let c2 : ℚ := c / 255
  if c2 ≤ 0.04045 * 255 then ((c2 / 12.92 : ℚ) : ℝ)
  else (((c2 + 0.055 * 255) / (1.055 * 255) : ℚ) : ℝ) ^ (2.4 : ℝ)

/-- Embeds `relative_luminance` (color_ops.py line 149). -/
noncomputable def relative_luminance (rgb : ℚ × ℚ × ℚ) : ℝ :=
  0.2126 * srgb_to_lin rgb.1 + 0.7152 * srgb_to_lin rgb.2.1 +
    0.0722 * srgb_to_lin rgb.2.2

/-- Embeds `contrast_ratio` (color_ops.py line 156): luminances are sorted
descending before forming the ratio. -/
noncomputable def contrast_ratio (rgb1 rgb2 : ℚ × ℚ × ℚ) : ℝ :=
  let L1 := relative_luminance rgb1
  let L2 := relative_luminance rgb2
  let p : ℝ × ℝ := if L1 ≥ L2 then (L1, L2) else (L2, L1)
  (p.1 + 0.05) / (p.2 + 0.05)

/-- Validity of an sRGB triple: every channel in [0,255]. -/
def ValidRGB (rgb : ℚ × ℚ × ℚ) : Prop :=
  0 ≤ rgb.1 ∧ rgb.1 ≤ 255 ∧ 0 ≤ rgb.2.1 ∧ rgb.2.1 ≤ 255 ∧
    0 ≤ rgb.2.2 ∧ rgb.2.2 ≤ 255

instance (rgb : ℚ × ℚ × ℚ) : Decidable (ValidRGB rgb) := by
  unfold ValidRGB; infer_instance

/-! #### Hex encoding and decoding (color_ops.py lines 7-12) -/

/-- Value of a single hexadecimal digit, as accepted by Python's
`int(s, 16)` (both cases accepted). -/
def hexDigitVal (c : Char) : Option ℕ :=
  if '0' ≤ c ∧ c ≤ '9' then some (c.toNat - '0'.toNat)
  else if 'a' ≤ c ∧ c ≤ 'f' then some (c.toNat - 'a'.toNat + 10)
  else if 'A' ≤ c ∧ c ≤ 'F' then some (c.toNat - 'A'.toNat + 10)
  else none

/-- Accumulating hex parser. -/
def parseHexAux : List Char → ℕ → Option ℕ
  | [], acc => some acc
  | c :: cs, acc =>
    match hexDigitVal c with
    | none => none
    | some v => parseHexAux cs (16 * acc + v)

/-- Models Python's `int(s, 16)`: fails on the empty string or on a
non-digit character (digit-group underscores are not modelled). -/
def parseHex (cs : List Char) : Option ℕ :=
  if cs = [] then none else parseHexAux cs 0

/-- Embeds `hex_to_rgb` (color_ops.py line 7): strip leading `#` characters
(`str.lstrip`), then parse the three two-character slices `h[0:2]`, `h[2:4]`,
`h[4:6]`. -/
def hex_to_rgb (s : List Char) : Option (ℕ × ℕ × ℕ) :=
  let h := s.dropWhile (fun c => c == '#')
  match parseHex ((h.drop 0).take 2), parseHex ((h.drop 2).take 2),
      parseHex ((h.drop 4).take 2) with
  | some r, some g, some b => some (r, g, b)
  | _, _, _ => none

/-- Lower-case hex digit character for a value below 16, as produced by the
`"{:02x}"` format. -/
def hexChar (n : ℕ) : Char :=
  match n with
  | 0 => '0' | 1 => '1' | 2 => '2' | 3 => '3' | 4 => '4'
  | 5 => '5' | 6 => '6' | 7 => '7' | 8 => '8' | 9 => '9'
  | 10 => 'a' | 11 => 'b' | 12 => 'c' | 13 => 'd' | 14 => 'e'
  | 15 => 'f' | _ => '0'

/-- Two-digit rendering of a byte, as `"{:02x}"` produces for values in
[0,255]. -/
def byteHex (n : ℕ) : List Char := [hexChar (n / 16), hexChar (n % 16)]

/-- Embeds `rgb_to_hex` (color_ops.py line 11) for byte-range channels. -/
def rgb_to_hex (rgb : ℕ × ℕ × ℕ) : List Char :=
  '#' :: (byteHex rgb.1 ++ byteHex rgb.2.1 ++ byteHex rgb.2.2)

/-- The 22 characters accepted as hex digits. -/
def hexDigitChars : List Char :=
  ['0', 'a', 'A', '1', 'b', 'B', '2', 'c', 'C', '3', 'd', 'D',
   '4', 'e', 'E', '5', 'f', 'F', '6', '7', '8', '9']

/-- Membership in the hex-digit alphabet. -/
def isHexDigitChar (c : Char) : Prop := c ∈ hexDigitChars

instance (c : Char) : Decidable (isHexDigitChar c) := by
  unfold isHexDigitChar; infer_instance

/-! #### Lab conversion (color_ops.py lines 14-21) -/

/-- CIE Lab triple as produced by the conversion. -/
@[ext]
structure Lab where
  L : ℝ
  a : ℝ
  b : ℝ

/-- Piecewise sRGB gamma expansion of a channel already scaled to [0,1]; the
branch test is on exact rationals.  Models the sRGB linearisation OpenCV
applies inside `cvtColor` for the RGB→Lab conversion. -/
noncomputable def gammaExpand (u : ℚ) : ℝ :=
  if u ≤ 0.04045 then ((u / 12.92 : ℚ) : ℝ)
  else (((u + 0.055) / 1.055 : ℚ) : ℝ) ^ (2.4 : ℝ)

/-- CIE Lab auxiliary function f of the conversion. -/
noncomputable def labF (t : ℝ) : ℝ :=
  if t > 0.008856 then t ^ ((1 : ℝ) / 3) else 7.787 * t + 16 / 116

/-- Models the OpenCV call of `rgb_to_lab` (color_ops.py line 20) on a single
color whose channels are already in [0,255].  The source delegates to
OpenCV's `cvtColor(..., COLOR_BGR2LAB)` on uint8 data.  OpenCV's conversion
(color documentation plus the sRGB linearisation its implementation applies
for Lab) gamma-expands each channel, applies the documented RGB→XYZ matrix
under the D65 reference white with the documented normalisations
Xn = 0.950456 and Zn = 1.088754, applies the CIE Lab transform, and stores
the result in the documented 8-bit encoding `L ← L*·255/100`,
`a ← a* + 128`, `b ← b* + 128` (so mid-gray maps to L ≈ 137, white to
(255,128,128)).  The fixed-point rounding of the uint8 pipeline is not
modelled; channels are exact rationals, results exact reals.  The BGR flip
of line 18 is undone by OpenCV reading BGR and has no observable effect, so
it is not modelled separately. -/
noncomputable def rgb_to_lab_core (rgb : ℚ × ℚ × ℚ) : Lab :=
  let R := gammaExpand (rgb.1 / 255)
  let G := gammaExpand (rgb.2.1 / 255)
  let B := gammaExpand (rgb.2.2 / 255)
  let Y := 0.212671 * R + 0.715160 * G + 0.072169 * B
  let Lstar := if Y > 0.008856 then 116 * Y ^ ((1 : ℝ) / 3) - 16 else 903.3 * Y
  ⟨Lstar * 255 / 100,
   500 * (labF ((0.412453 * R + 0.357580 * G + 0.180423 * B) / 0.950456) -
       labF Y) + 128,
   200 * (labF Y -
       labF ((0.019334 * R + 0.119193 * G + 0.950227 * B) / 1.088754)) + 128⟩

/-- Models the ingestion step `.astype(np.uint8)` of `rgb_to_lab`
(color_ops.py line 18): numpy's `astype(np.uint8)` reduces integer channels
modulo 256 (a C cast); nothing is rejected. -/
def toUint8 (c : ℤ) : ℤ := c % 256

/-- Embeds `rgb_to_lab` (color_ops.py line 14) on one color: uint8 coercion
of the channels, then the OpenCV conversion. -/
noncomputable def rgb_to_lab (rgb : ℤ × ℤ × ℤ) : Lab :=
  rgb_to_lab_core ((toUint8 rgb.1 : ℚ), (toUint8 rgb.2.1 : ℚ),
    (toUint8 rgb.2.2 : ℚ))

/-! #### Distance metrics (color_ops.py lines 24-114) -/

/-- Embeds `deltaE76` (color_ops.py line 24) at one pair: each entry of the
returned N×M matrix is this Euclidean distance. -/
noncomputable def deltaE76 (p q : Lab) : ℝ :=
  Real.sqrt ((p.L - q.L) ^ 2 + (p.a - q.a) ^ 2 + (p.b - q.b) ^ 2)

/-- numpy `arctan2` normalised to [0, 2π), as the local `_atan2` helper of
`deltaE2000` (color_ops.py line 61) does; `np.arctan2 y x` is
`Complex.arg` of `x + i y`. -/
noncomputable def atan2p (y x : ℝ) : ℝ :=
  let ang := Complex.arg ⟨x, y⟩
  if ang < 0 then ang + 2 * Real.pi else ang

/-- The two sequential `np.where` wraps applied to the raw hue difference
(color_ops.py lines 74-75). -/
noncomputable def wrapPi (d : ℝ) : ℝ :=
  let d1 := if Real.pi < d then d - 2 * Real.pi else d
  if d1 < -Real.pi then d1 + 2 * Real.pi else d1

/-- Chroma C* of a Lab color (line 46). -/
noncomputable def Cab (p : Lab) : ℝ := Real.sqrt (p.a ^ 2 + p.b ^ 2)

/-- The G factor (line 52); it depends on both colors of the pair. -/
noncomputable def Gterm (p q : Lab) : ℝ :=
  let cb := (Cab p + Cab q) / 2
  0.5 * (1 - Real.sqrt (cb ^ 7 / (cb ^ 7 + 25 ^ 7)))

/-- Corrected a-prime of the first color of the pair (line 55). -/
noncomputable def aprime (p q : Lab) : ℝ := (1 + Gterm p q) * p.a

/-- C-prime of the first color of the pair (line 57). -/
noncomputable def Cprime (p q : Lab) : ℝ := Real.sqrt (aprime p q ^ 2 + p.b ^ 2)

/-- Hue angle h-prime of the first color of the pair (line 66). -/
noncomputable def hprime (p q : Lab) : ℝ := atan2p p.b (aprime p q)

/-- Wrapped hue difference Δh-prime (lines 73-75). -/
noncomputable def dhp (p q : Lab) : ℝ := wrapPi (hprime q p - hprime p q)

/-- Chord-length hue difference ΔH-prime (line 76). -/
noncomputable def dHp (p q : Lab) : ℝ :=
  2 * Real.sqrt (Cprime p q * Cprime q p) * Real.sin (dhp p q / 2)

/-- Mean hue with the wrap corrections of the source (lines 82-84). -/
noncomputable def hbar (p q : Lab) : ℝ :=
  let m := (hprime p q + hprime q p) / 2
  let m2 := if Real.pi < |hprime p q - hprime q p| then m + Real.pi else m
  if 2 * Real.pi ≤ m2 then m2 - 2 * Real.pi else m2

/-- Degrees to radians, `np.deg2rad`. -/
noncomputable def deg2rad (x : ℝ) : ℝ := x * Real.pi / 180

/-- Radians to degrees, `np.rad2deg`. -/
noncomputable def rad2deg (x : ℝ) : ℝ := x * 180 / Real.pi

/-- The hue rotation term T (lines 87-91). -/
noncomputable def Tterm (p q : Lab) : ℝ :=
  1 - 0.17 * Real.cos (hbar p q - deg2rad 30) + 0.24 * Real.cos (2 * hbar p q)
    + 0.32 * Real.cos (3 * hbar p q + deg2rad 6)
    - 0.20 * Real.cos (4 * hbar p q - deg2rad 63)

/-- Lightness weight SL (line 94). -/
noncomputable def SL (p q : Lab) : ℝ :=
  1 + 0.015 * ((p.L + q.L) / 2 - 50) ^ 2 /
    Real.sqrt (20 + ((p.L + q.L) / 2 - 50) ^ 2)

/-- Mean C-prime (line 80). -/
noncomputable def Cpbar (p q : Lab) : ℝ := (Cprime p q + Cprime q p) / 2

/-- Chroma weight SC (line 95). -/
noncomputable def SC (p q : Lab) : ℝ := 1 + 0.045 * Cpbar p q

/-- Hue weight SH (line 96). -/
noncomputable def SH (p q : Lab) : ℝ := 1 + 0.015 * Cpbar p q * Tterm p q

/-- Rotation angle Δθ (line 99). -/
noncomputable def dTheta (p q : Lab) : ℝ :=
  deg2rad 30 * Real.exp (-(((rad2deg (hbar p q) - 275) / 25) ^ 2))

/-- Rotation weight RC (line 100). -/
noncomputable def RC (p q : Lab) : ℝ :=
  2 * Real.sqrt (Cpbar p q ^ 7 / (Cpbar p q ^ 7 + 25 ^ 7))

/-- Rotation term RT (line 101). -/
noncomputable def RT (p q : Lab) : ℝ := -Real.sin (2 * dTheta p q) * RC p q

/-- Radicand of the final CIEDE2000 formula (lines 107-112, all k
constants fixed at 1). -/
noncomputable def dE00arg (p q : Lab) : ℝ :=
  ((p.L - q.L) / SL p q) ^ 2 + ((Cprime p q - Cprime q p) / SC p q) ^ 2 +
    (dHp p q / SH p q) ^ 2 +
    RT p q * ((Cprime p q - Cprime q p) / SC p q) * (dHp p q / SH p q)

/-- Embeds `deltaE2000` (color_ops.py line 35) at one pair of Lab colors:
each (i,j) entry of the vectorized N×M matrix is this scalar. -/
noncomputable def deltaE2000 (p q : Lab) : ℝ := Real.sqrt (dE00arg p q)

/-! #### First-minimum index, `np.argmin` -/

/-- Minimum of `x` and the elements of `xs` (left fold with `min`). -/
def minList {α : Type} [LinearOrder α] (x : α) (xs : List α) : α :=
  xs.foldl min x

/-- Models `np.argmin`: index of the first minimal element (0 on the empty
list, where numpy raises instead; callers below guard non-emptiness). -/
def argminList {α : Type} [LinearOrder α] : List α → ℕ
  | [] => 0
  | [_] => 0
  | x :: y :: ys => if x ≤ minList y ys then 0 else argminList (y :: ys) + 1

/-! #### Palette matching (color_ops.py lines 117-142) -/

/-- Reference palette entry (core/tailwind.py, `TWEntry`). -/
structure TWEntry where
  name : List Char
  shade : ℤ
  hex : List Char

/-- Result record of `nearest_tailwind` (color_ops.py, `TWMatch`). -/
structure TWMatch where
  name : List Char
  shade : ℤ
  hex : List Char
  deltaE : ℝ

/-- Method strings routed to CIEDE2000 by `nearest_tailwind` (line 135). -/
def de2000Names : List String := ["DE2000", "CIEDE2000", "DE00"]

/-- Distance row computed by `nearest_tailwind` (lines 134-138): the selected
metric from the input color's Lab value to every palette Lab value (row 0 of
the 1×M matrix). -/
noncomputable def nearestDists (rgb : ℤ × ℤ × ℤ) (tw_lab : List Lab)
    (method : String) : List ℝ :=
  if method.toUpper ∈ de2000Names then tw_lab.map (deltaE2000 (rgb_to_lab rgb))
  else tw_lab.map (deltaE76 (rgb_to_lab rgb))

/-- Embeds `nearest_tailwind` (color_ops.py line 124).  `np.argmin` on an
empty row and an out-of-range `tw_entries[k]` access raise in Python; both
failure modes are folded into the `none` branch. -/
noncomputable def nearest_tailwind (rgb : ℤ × ℤ × ℤ)
    (tw_entries : List TWEntry) (tw_lab : List Lab) (method : String) :
    Option TWMatch :=
  let dists := nearestDists rgb tw_lab method
  let k := argminList dists
  match tw_lab.isEmpty, tw_entries.get? k, dists.get? k with
  | false, some e, some d => some ⟨e.name, e.shade, e.hex, d⟩
  | _, _, _ => none

/-! #### Dominant color extraction (extractor.py) -/

/-- Pixel or center color with exact rational channels. -/
abbrev Px := ℚ × ℚ × ℚ

/-- Squared Euclidean RGB distance, as the weight-estimation step of
`kmeans_colors` computes it (extractor.py lines 44-45). -/
def sqDist (p c : Px) : ℚ :=
  (p.1 - c.1) ^ 2 + (p.2.1 - c.2.1) ^ 2 + (p.2.2 - c.2.2) ^ 2

/-- Label of a pixel: index of the nearest center (extractor.py line 46). -/
def labelOf (centers : List Px) (p : Px) : ℕ :=
  argminList (centers.map (fun c => sqDist p c))

/-- Per-center pixel counts, `np.bincount(labels, minlength=k)`
(extractor.py line 47); labels are below `k` whenever `centers` is
non-empty, so the length is exactly `centers.length`. -/
def countsOf (pixels centers : List Px) : List ℕ :=
  (List.range centers.length).map
    (fun j => pixels.countP (fun p => labelOf centers p == j))

/-- One channel of `centers.clip(0, 255).astype(np.uint8)` (extractor.py
line 40): clamp into [0,255], then the float→uint8 cast truncates, which on
the clamped non-negative value is the floor. -/
def clipByte (x : ℚ) : ℚ := ((⌊max 0 (min 255 x)⌋ : ℤ) : ℚ)

/-- Clipped integer center (extractor.py line 40). -/
def clipPx (c : Px) : Px := (clipByte c.1, clipByte c.2.1, clipByte c.2.2)

/-- Descending-weight comparison of two indices, the key order of
`np.argsort(-weights)` (extractor.py line 51). -/
def wge (w : List ℚ) (i j : ℕ) : Bool := w.getD j 0 ≤ w.getD i 0

/-- Embeds the weight-estimation and sorting phase of `kmeans_colors`
(extractor.py lines 40-52): clip the raw cv2.kmeans centers, assign every
pixel of the (downscaled, NOT subsampled) frame to its nearest center,
normalise the counts, and order centers and weights by descending weight.
`np.argsort(-weights)` is modelled as a mergesort of the index list by
descending weight (numpy's unstable quicksort fixes no particular order
among exactly equal weights; any descending order realises the contract). -/
def kmeansWeightPhase (pixels rawCenters : List Px) : List Px × List ℚ :=
  let centers := rawCenters.map clipPx
  let counts := countsOf pixels centers
  let weights := counts.map (fun c : ℕ => (c : ℚ) / (counts.sum : ℚ))
  let order := (List.range centers.length).mergeSort (wge weights)
  (order.map (fun i => centers.getD i (0, 0, 0)),
   order.map (fun i => weights.getD i 0))

/-- Embeds `kmeans_colors` (extractor.py line 6) after image decoding and
downscaling: `pixels` is the pixel list of the (possibly downscaled) frame,
`sample` the subsample cap, and `rawCenters` stands for the centers returned
by the external `cv2.kmeans` call of line 39 (whose contract returns exactly
`k` centers).  OpenCV's `kmeans` asserts that the number of samples handed
to it — `min pixels.length sample` after the subsampling of lines 30-35 —
is at least `k` (`CV_Assert(N >= K)` in cv::kmeans) and raises otherwise;
that failure is the `none` branch. -/
def kmeans_colors (pixels : List Px) (k sample : ℕ) (rawCenters : List Px) :
    Option (List Px × List ℚ) :=
  if min pixels.length sample < k then none
  else some (kmeansWeightPhase pixels rawCenters)

/-! ### Part 2: lemmas and claim theorems -/

/-! #### Contrast (claims C9 and C2) -/

lemma srgb_to_lin_nonneg (c : ℚ) (hc : 0 ≤ c) : 0 ≤ srgb_to_lin c := by
  simp only [srgb_to_lin]
  split_ifs with h
  · have : (0 : ℚ) ≤ c / 255 / 12.92 := by positivity
    exact_mod_cast this
  · exact Real.rpow_nonneg (by positivity) _

lemma relative_luminance_nonneg (rgb : ℚ × ℚ × ℚ) (h : ValidRGB rgb) :
    0 ≤ relative_luminance rgb := by
  obtain ⟨h1, -, h2, -, h3, -⟩ := h
  have l1 := srgb_to_lin_nonneg rgb.1 h1
  have l2 := srgb_to_lin_nonneg rgb.2.1 h2
  have l3 := srgb_to_lin_nonneg rgb.2.2 h3
  unfold relative_luminance
  nlinarith

/-- C9: for every pair of sRGB colors, `contrast_ratio` is symmetric in its
two arguments, and its value is at least 1, because the two luminances are
sorted descending before the ratio `(lighter + 0.05) / (darker + 0.05)` is
formed. -/
theorem contrast_ratio_symm_ge_one (a b : ℚ × ℚ × ℚ)
    (ha : ValidRGB a) (hb : ValidRGB b) :
    contrast_ratio a b = contrast_ratio b a ∧ 1 ≤ contrast_ratio a b := by
  have hLa := relative_luminance_nonneg a ha
  have hLb := relative_luminance_nonneg b hb
  simp only [contrast_ratio]
  constructor
  · split_ifs with h1 h2 h2
    · have : relative_luminance a = relative_luminance b := le_antisymm h2 h1
      rw [this]
    · rfl
    · rfl
    · exact absurd (le_of_not_le h1) h2
  · split_ifs with h1
    · dsimp only
      rw [le_div_iff₀ (by linarith)]
      linarith
    · dsimp only
      have h1' := le_of_not_le h1
      rw [le_div_iff₀ (by linarith)]
      linarith

/-- Witness for C9 at the concrete pair (10,20,30), (200,100,50). -/
theorem contrast_ratio_symm_ge_one_witness :
    ValidRGB (10, 20, 30) ∧ ValidRGB (200, 100, 50) ∧
      (contrast_ratio (10, 20, 30) (200, 100, 50) =
          contrast_ratio (200, 100, 50) (10, 20, 30) ∧
        1 ≤ contrast_ratio (10, 20, 30) (200, 100, 50)) :=
  ⟨by decide, by decide,
    contrast_ratio_symm_ge_one (10, 20, 30) (200, 100, 50) (by decide) (by decide)⟩

/-- C2 (code bug evidence): the source's `_srgb_to_lin` compares the
already-rescaled channel `c / 255` against the unrescaled threshold
`0.04045 * 255`, so the linear branch is always taken on valid input and the
gamma branch is dead code.  Consequently `contrast_ratio((0,0,0),(255,255,255))`
evaluates to `(1/12.92 + 0.05) / 0.05 = 823/323 ≈ 2.548`, not the claimed
maximum ratio 21. -/
theorem contrast_ratio_black_white_ne_21 :
    contrast_ratio (0, 0, 0) (255, 255, 255) = 823 / 323 ∧
      ((823 : ℝ) / 323) ≠ 21 := by
  constructor
  · simp only [contrast_ratio, relative_luminance, srgb_to_lin]
    norm_num
  · norm_num

/-- C2 (true half): `contrast_ratio(X, X) = 1` for every valid color X, since
both luminances coincide and the numerator equals the denominator. -/
theorem contrast_ratio_self_eq_one (x : ℚ × ℚ × ℚ) (hx : ValidRGB x) :
    contrast_ratio x x = 1 := by
  have h := relative_luminance_nonneg x hx
  simp only [contrast_ratio]
  split_ifs <;> rw [div_self (by linarith)]

/-- Witness for the self-contrast theorem at (7,8,9). -/
theorem contrast_ratio_self_eq_one_witness :
    ValidRGB (7, 8, 9) ∧ contrast_ratio (7, 8, 9) (7, 8, 9) = 1 :=
  ⟨by decide, contrast_ratio_self_eq_one (7, 8, 9) (by decide)⟩

/-! #### Hex round trips (claim C10) -/

lemma hexDigitVal_hexChar : ∀ k < 16, hexDigitVal (hexChar k) = some k := by
  decide

lemma hexChar_ne_hash : ∀ k < 16, (hexChar k == '#') = false := by
  decide

lemma hexDigit_facts : ∀ c ∈ hexDigitChars,
    (c == '#') = false ∧ (hexDigitVal c).isSome = true ∧
      (hexDigitVal c).getD 0 < 16 ∧
      hexChar ((hexDigitVal c).getD 0) = c.toLower := by
  decide

lemma parseHex_byteHex (n : ℕ) (hn : n ≤ 255) : parseHex (byteHex n) = some n := by
  have hd : n / 16 < 16 := Nat.div_lt_of_lt_mul (by omega)
  have hm : n % 16 < 16 := Nat.mod_lt _ (by omega)
  simp only [byteHex, parseHex, parseHexAux, reduceCtorEq, if_false,
    hexDigitVal_hexChar _ hd, hexDigitVal_hexChar _ hm]
  simp only [Nat.mul_zero, Nat.zero_add]
  exact congrArg some (Nat.div_add_mod n 16)

lemma hexDigit_get (c : Char) (h : isHexDigitChar c) :
    ∃ v, hexDigitVal c = some v ∧ v < 16 ∧ hexChar v = c.toLower ∧
      (c == '#') = false := by
  obtain ⟨hne, hsome, hlt, hch⟩ := hexDigit_facts c h
  obtain ⟨v, hv⟩ := Option.isSome_iff_exists.mp hsome
  rw [hv, Option.getD_some] at hlt hch
  exact ⟨v, hv, hlt, hch, hne⟩

lemma byteHex_combine (v1 v2 : ℕ) (h2 : v2 < 16) :
    byteHex (16 * v1 + v2) = [hexChar v1, hexChar v2] := by
  unfold byteHex
  rw [Nat.mul_add_div (by omega), Nat.div_eq_of_lt h2, Nat.add_zero,
    Nat.mul_add_mod, Nat.mod_eq_of_lt h2]

/-- C10: hex encoding and decoding are mutually inverse: decoding an encoded
byte triple returns the triple, and encoding a decoded well-formed
seven-character string `#rrggbb` returns the string lower-cased. -/
theorem hex_rgb_roundtrips :
    (∀ r g b : ℕ, r ≤ 255 → g ≤ 255 → b ≤ 255 →
      hex_to_rgb (rgb_to_hex (r, g, b)) = some (r, g, b)) ∧
    (∀ cs : List Char, cs.length = 6 → (∀ c ∈ cs, isHexDigitChar c) →
      ∃ rgb, hex_to_rgb ('#' :: cs) = some rgb ∧
        rgb_to_hex rgb = ('#' :: cs).map Char.toLower) := by
  constructor
  · intro r g b hr hg hb
    have hdr : r / 16 < 16 := Nat.div_lt_of_lt_mul (by omega)
    have h1 := hexChar_ne_hash _ hdr
    have pr := parseHex_byteHex r hr
    have pg := parseHex_byteHex g hg
    have pb := parseHex_byteHex b hb
    simp only [byteHex] at pr pg pb
    simp only [rgb_to_hex, byteHex, hex_to_rgb, List.cons_append, List.nil_append,
      List.dropWhile_cons, beq_self_eq_true, if_true, h1, Bool.false_eq_true,
      if_false, List.drop_zero, List.take_succ_cons, List.take_zero,
      List.drop_succ_cons, pr, pg, pb]
  · intro cs hlen hdig
    rcases cs with _ | ⟨c1, _ | ⟨c2, _ | ⟨c3, _ | ⟨c4, _ | ⟨c5, _ | ⟨c6, tl⟩⟩⟩⟩⟩⟩ <;>
      simp only [List.length_cons, List.length_nil] at hlen <;> try omega
    have htl : tl = [] := List.eq_nil_of_length_eq_zero (by omega)
    subst htl
    obtain ⟨v1, hv1, hl1, hc1, hn1⟩ := hexDigit_get c1 (hdig c1 (by simp))
    obtain ⟨v2, hv2, hl2, hc2, hn2⟩ := hexDigit_get c2 (hdig c2 (by simp))
    obtain ⟨v3, hv3, hl3, hc3, hn3⟩ := hexDigit_get c3 (hdig c3 (by simp))
    obtain ⟨v4, hv4, hl4, hc4, hn4⟩ := hexDigit_get c4 (hdig c4 (by simp))
    obtain ⟨v5, hv5, hl5, hc5, hn5⟩ := hexDigit_get c5 (hdig c5 (by simp))
    obtain ⟨v6, hv6, hl6, hc6, hn6⟩ := hexDigit_get c6 (hdig c6 (by simp))
    refine ⟨(16 * v1 + v2, 16 * v3 + v4, 16 * v5 + v6), ?_, ?_⟩
    · simp only [hex_to_rgb, List.dropWhile_cons, beq_self_eq_true, if_true,
        hn1, Bool.false_eq_true, if_false, List.drop_zero, List.take_succ_cons,
        List.take_zero, List.drop_succ_cons, parseHex, parseHexAux,
        reduceCtorEq, hv1, hv2, hv3, hv4, hv5, hv6, Nat.mul_zero, Nat.zero_add]
    · have hhash : '#'.toLower = '#' := by decide
      simp only [rgb_to_hex, byteHex_combine v1 v2 hl2, byteHex_combine v3 v4 hl4,
        byteHex_combine v5 v6 hl6, hc1, hc2, hc3, hc4, hc5, hc6, List.map_cons,
        List.map_nil, List.cons_append, List.nil_append, hhash]

/-- Witness for C10: both round trips at concrete inputs — the byte triple
(171, 9, 255) and the string "#Ab09fF". -/
theorem hex_rgb_roundtrips_witness :
    hex_to_rgb (rgb_to_hex (171, 9, 255)) = some (171, 9, 255) ∧
      ∃ rgb, hex_to_rgb ('#' :: ['A', 'b', '0', '9', 'f', 'F']) = some rgb ∧
        rgb_to_hex rgb =
          ('#' :: ['A', 'b', '0', '9', 'f', 'F']).map Char.toLower :=
  ⟨hex_rgb_roundtrips.1 171 9 255 (by decide) (by decide) (by decide),
    hex_rgb_roundtrips.2 ['A', 'b', '0', '9', 'f', 'F'] (by decide) (by decide)⟩

/-! #### First-minimum index lemmas -/

lemma foldl_min_assoc {α : Type} [LinearOrder α] :
    ∀ (ys : List α) (x y : α), ys.foldl min (min x y) = min x (ys.foldl min y) := by
  intro ys
  induction ys with
  | nil => intro x y; rfl
  | cons z zs ih =>
    intro x y
    show zs.foldl min (min (min x y) z) = min x (zs.foldl min (min y z))
    rw [min_assoc, ih]

lemma minList_cons {α : Type} [LinearOrder α] (x y : α) (ys : List α) :
    minList x (y :: ys) = min x (minList y ys) := by
  show (y :: ys).foldl min x = min x (ys.foldl min y)
  rw [List.foldl_cons, foldl_min_assoc]

lemma minList_le {α : Type} [LinearOrder α] :
    ∀ (xs : List α) (x : α), minList x xs ≤ x ∧ ∀ y ∈ xs, minList x xs ≤ y := by
  intro xs
  induction xs with
  | nil => exact fun x => ⟨le_refl x, fun y h => absurd h (List.not_mem_nil y)⟩
  | cons z zs ih =>
    intro x
    rw [minList_cons]
    refine ⟨min_le_left _ _, fun y hy => ?_⟩
    rcases List.mem_cons.mp hy with h | h
    · rw [h]
      exact le_trans (min_le_right _ _) (ih z).1
    · exact le_trans (min_le_right _ _) ((ih z).2 y h)

lemma argminList_lt_length {α : Type} [LinearOrder α] :
    ∀ l : List α, l ≠ [] → argminList l < l.length := by
  intro l
  induction l with
  | nil => intro h; exact absurd rfl h
  | cons x xs ih =>
    intro _
    cases xs with
    | nil => simp [argminList]
    | cons y ys =>
      simp only [argminList]
      split_ifs
      · simp
      · have := ih (by simp)
        simp only [List.length_cons] at *
        omega

lemma argminList_getD {α : Type} [LinearOrder α] (d : α) :
    ∀ (y : α) (ys : List α),
      (y :: ys).getD (argminList (y :: ys)) d = minList y ys := by
  intro y ys
  induction ys generalizing y with
  | nil => simp [argminList, minList]
  | cons z zs ih =>
    simp only [argminList]
    split_ifs with h
    · simp only [List.getD_cons_zero]
      rw [minList_cons]
      exact (min_eq_left h).symm
    · rw [List.getD_cons_succ, ih z, minList_cons, min_eq_right (le_of_not_le h)]

lemma argminList_le {α : Type} [LinearOrder α] (d : α) (l : List α) (j : ℕ)
    (hj : j < l.length) : l.getD (argminList l) d ≤ l.getD j d := by
  cases l with
  | nil => simp at hj
  | cons y ys =>
    rw [argminList_getD]
    have hmem : (y :: ys).getD j d ∈ y :: ys := by
      rw [List.getD_eq_getElem _ _ hj]
      exact List.getElem_mem hj
    rcases List.mem_cons.mp hmem with h | h
    · rw [h]
      exact (minList_le ys y).1
    · exact (minList_le ys y).2 _ h

lemma argminList_first {α : Type} [LinearOrder α] (d : α) :
    ∀ (l : List α) (j : ℕ), j < argminList l →
      l.getD (argminList l) d < l.getD j d := by
  intro l
  induction l with
  | nil => intro j hj; simp [argminList] at hj
  | cons x xs ih =>
    cases xs with
    | nil => intro j hj; simp [argminList] at hj
    | cons y ys =>
      intro j hj
      simp only [argminList] at hj ⊢
      split_ifs at hj ⊢ with h
      · omega
      · have hlt : minList y ys < x := lt_of_not_le h
        cases j with
        | zero =>
          rw [List.getD_cons_succ, List.getD_cons_zero, argminList_getD]
          exact hlt
        | succ j2 =>
          rw [List.getD_cons_succ, List.getD_cons_succ]
          exact ih j2 (by omega)

/-! #### Extraction weights (claims C5 and C6) -/

lemma labelOf_lt_length (centers : List Px) (hc : centers ≠ []) (p : Px) :
    labelOf centers p < centers.length := by
  unfold labelOf
  have h := argminList_lt_length (centers.map (fun c => sqDist p c))
    (by simpa using hc)
  simpa using h

lemma list_sum_map_add {β : Type} (l : List β) (f g : β → ℕ) :
    (l.map (fun x => f x + g x)).sum = (l.map f).sum + (l.map g).sum := by
  induction l with
  | nil => rfl
  | cons a t ih =>
    simp only [List.map_cons, List.sum_cons, ih]
    omega

lemma indicator_sum_zero (m : ℕ) :
    ∀ k : ℕ, k ≤ m →
      ((List.range k).map (fun j => if m = j then 1 else 0)).sum = 0 := by
  intro k
  induction k with
  | zero => intro _; rfl
  | succ n ih =>
    intro h
    rw [List.range_succ, List.map_append, List.sum_append, ih (by omega)]
    simp [show m ≠ n from by omega]

lemma indicator_sum (m : ℕ) :
    ∀ k : ℕ, m < k →
      ((List.range k).map (fun j => if m = j then 1 else 0)).sum = 1 := by
  intro k
  induction k with
  | zero => intro h; omega
  | succ n ih =>
    intro h
    rw [List.range_succ, List.map_append, List.sum_append]
    rcases Nat.lt_or_ge m n with h2 | h2
    · rw [ih h2]
      simp [show m ≠ n from by omega]
    · have hm : m = n := by omega
      rw [indicator_sum_zero m n h2]
      simp [hm]

lemma countsOf_sum (pixels centers : List Px) (hc : centers ≠ []) :
    (countsOf pixels centers).sum = pixels.length := by
  induction pixels with
  | nil =>
    unfold countsOf
    simp [List.countP_nil]
  | cons p ps ih =>
    unfold countsOf at ih ⊢
    simp only [List.countP_cons, beq_iff_eq]
    rw [list_sum_map_add, ih]
    rw [indicator_sum (labelOf centers p) centers.length
      (labelOf_lt_length centers hc p)]
    simp [Nat.add_comm]

lemma map_div_sum (l : List ℕ) (d : ℚ) :
    (l.map (fun c : ℕ => (c : ℚ) / d)).sum = (l.sum : ℚ) / d := by
  induction l with
  | nil => simp
  | cons a t ih =>
    simp only [List.map_cons, List.sum_cons, ih]
    push_cast
    rw [add_div]

lemma map_getD_range {α : Type} (d : α) :
    ∀ l : List α, (List.range l.length).map (fun i => l.getD i d) = l := by
  intro l
  induction l with
  | nil => rfl
  | cons a t ih =>
    rw [List.length_cons, List.range_succ_eq_map]
    simp only [List.map_cons, List.getD_cons_zero, List.map_map]
    have h : ((fun i => (a :: t).getD i d) ∘ Nat.succ) = fun i => t.getD i d := by
      funext i; rfl
    rw [h, ih]

lemma order_pairwise (w : List ℚ) (k : ℕ) :
    List.Pairwise (fun i j => w.getD j 0 ≤ w.getD i 0)
      ((List.range k).mergeSort (wge w)) := by
  have h := @List.sorted_mergeSort ℕ (wge w)
    (fun a b c h1 h2 => by
      simp only [wge, decide_eq_true_eq] at h1 h2 ⊢
      exact le_trans h2 h1)
    (fun a b => by
      simp only [wge, Bool.or_eq_true, decide_eq_true_eq]
      exact le_total _ _)
    (List.range k)
  refine h.imp ?_
  intro a b hab
  simpa only [wge, decide_eq_true_eq] using hab

lemma order_map_sum (w : List ℚ) (k : ℕ) (hk : w.length = k) :
    (((List.range k).mergeSort (wge w)).map (fun i => w.getD i 0)).sum = w.sum := by
  have hperm := List.mergeSort_perm (List.range k) (wge w)
  have hmap := (hperm.map (fun i => w.getD i 0)).sum_eq
  rw [hmap, ← hk, map_getD_range]

lemma order_map_sorted (w : List ℚ) (k : ℕ) :
    List.Sorted (fun x y => x ≥ y)
      (((List.range k).mergeSort (wge w)).map (fun i => w.getD i 0)) := by
  unfold List.Sorted
  rw [List.pairwise_map]
  exact (order_pairwise w k).imp (fun hab => hab)

/-- C5: for every non-empty pixel frame and non-empty center set, the weights
produced by the extraction's weighting phase sum exactly to 1 (hence within
the 1e-6 tolerance), are sorted in descending order, and the per-cluster
counts they are normalised from sum to the pixel count of the full
(downscaled, not subsampled) frame. -/
theorem kmeans_weights_properties (pixels rawCenters : List Px)
    (hp : pixels ≠ []) (hc : rawCenters ≠ []) :
    (kmeansWeightPhase pixels rawCenters).2.sum = 1 ∧
      List.Sorted (fun x y => x ≥ y) (kmeansWeightPhase pixels rawCenters).2 ∧
      (countsOf pixels (rawCenters.map clipPx)).sum = pixels.length := by
  have hcc : rawCenters.map clipPx ≠ [] := by simpa using hc
  have hsum := countsOf_sum pixels (rawCenters.map clipPx) hcc
  have hlen0 : pixels.length ≠ 0 := by simpa using hp
  have hne : ((countsOf pixels (rawCenters.map clipPx)).sum : ℚ) ≠ 0 := by
    rw [hsum]
    exact_mod_cast hlen0
  simp only [kmeansWeightPhase]
  refine ⟨?_, ?_, hsum⟩
  · rw [order_map_sum _ _ (by simp [countsOf]), map_div_sum, div_self hne]
  · exact order_map_sorted _ _

/-- Witness for C5 at a concrete 3-pixel frame and 2 raw centers. -/
theorem kmeans_weights_properties_witness :
    ([((1 : ℚ), (2 : ℚ), (3 : ℚ)), (4, 5, 6), (4, 5, 6)] : List Px) ≠ [] ∧
      ([((0 : ℚ), (0 : ℚ), (0 : ℚ)), (5, 5, 5)] : List Px) ≠ [] ∧
      ((kmeansWeightPhase [(1, 2, 3), (4, 5, 6), (4, 5, 6)]
          [(0, 0, 0), (5, 5, 5)]).2.sum = 1 ∧
        List.Sorted (fun x y => x ≥ y)
          (kmeansWeightPhase [(1, 2, 3), (4, 5, 6), (4, 5, 6)]
            [(0, 0, 0), (5, 5, 5)]).2 ∧
        (countsOf [(1, 2, 3), (4, 5, 6), (4, 5, 6)]
            (([((0 : ℚ), (0 : ℚ), (0 : ℚ)), (5, 5, 5)] : List Px).map clipPx)).sum =
          ([((1 : ℚ), (2 : ℚ), (3 : ℚ)), (4, 5, 6), (4, 5, 6)] : List Px).length) :=
  ⟨by decide, by decide,
    kmeans_weights_properties [(1, 2, 3), (4, 5, 6), (4, 5, 6)]
      [(0, 0, 0), (5, 5, 5)] (by decide) (by decide)⟩

/-- C6 (amended): whenever the clustering input is at least K samples — at
least K pixels in the frame and a subsample cap of at least K — extraction
succeeds and returns exactly K centers with K weights, regardless of how few
distinct colors the frame holds (duplicate centers are fine: the length
contract does not depend on the center values `cv2.kmeans` produces). -/
theorem kmeans_colors_returns_k (pixels rawCenters : List Px) (k sample : ℕ)
    (hlen : rawCenters.length = k) (hk : k ≤ pixels.length)
    (hs : k ≤ sample) :
    ∃ cs ws, kmeans_colors pixels k sample rawCenters = some (cs, ws) ∧
      cs.length = k ∧ ws.length = k := by
  refine ⟨(kmeansWeightPhase pixels rawCenters).1,
    (kmeansWeightPhase pixels rawCenters).2, ?_, ?_, ?_⟩
  · unfold kmeans_colors
    rw [if_neg (by omega)]
  · simp [kmeansWeightPhase, List.length_mergeSort, hlen]
  · simp [kmeansWeightPhase, List.length_mergeSort, hlen]

/-- Witness for C6 at a concrete 3-pixel frame, K = 3. -/
theorem kmeans_colors_returns_k_witness :
    (([((0 : ℚ), (0 : ℚ), (0 : ℚ)), (1, 1, 1), (2, 2, 2)] : List Px).length = 3) ∧
      ∃ cs ws,
        kmeans_colors [(9, 9, 9), (8, 8, 8), (7, 7, 7)] 3 400000
          [(0, 0, 0), (1, 1, 1), (2, 2, 2)] = some (cs, ws) ∧
        cs.length = 3 ∧ ws.length = 3 :=
  ⟨by decide,
    kmeans_colors_returns_k [(9, 9, 9), (8, 8, 8), (7, 7, 7)]
      [(0, 0, 0), (1, 1, 1), (2, 2, 2)] 3 400000 (by decide) (by decide)
      (by decide)⟩

/-- C6 (counterexample to the claim as stated): a well-formed, non-empty
1-pixel frame with K = 3 (inside the supported 3-12 range) makes
`cv2.kmeans` reject its input — OpenCV asserts at least K samples — so
extraction fails rather than returning 3 centers. -/
theorem kmeans_colors_fails_on_small_frame :
    kmeans_colors [((0 : ℚ), (0 : ℚ), (0 : ℚ))] 3 400000
        [(0, 0, 0), (0, 0, 0), (0, 0, 0)] = none ∧
      ([((0 : ℚ), (0 : ℚ), (0 : ℚ))] : List Px) ≠ [] ∧ 3 ≤ 12 := by
  refine ⟨rfl, by decide, by decide⟩

/-! #### Palette matching (claim C7) -/

lemma nearestDists_length (rgb : ℤ × ℤ × ℤ) (labs : List Lab)
    (method : String) : (nearestDists rgb labs method).length = labs.length := by
  unfold nearestDists
  split_ifs <;> simp

/-- C7: for every input color, every non-empty reference palette (with its
Lab cache of matching length) and either metric, `nearest_tailwind` returns
the entry at the first index achieving the minimal distance of the computed
distance row, paired with that distance: the returned distance is a lower
bound of the whole row, and every strictly earlier entry has strictly larger
distance (first-wins tie-break of `np.argmin`). -/
theorem nearest_tailwind_min_first (rgb : ℤ × ℤ × ℤ) (entries : List TWEntry)
    (labs : List Lab) (method : String)
    (hne : entries ≠ []) (hlen : entries.length = labs.length) :
    ∃ k, ∃ hk : k < entries.length,
      nearest_tailwind rgb entries labs method =
        some ⟨(entries.get ⟨k, hk⟩).name, (entries.get ⟨k, hk⟩).shade,
          (entries.get ⟨k, hk⟩).hex, (nearestDists rgb labs method).getD k 0⟩ ∧
      (∀ j < labs.length, (nearestDists rgb labs method).getD k 0 ≤
        (nearestDists rgb labs method).getD j 0) ∧
      (∀ j < k, (nearestDists rgb labs method).getD k 0 <
        (nearestDists rgb labs method).getD j 0) := by
  have hdlen := nearestDists_length rgb labs method
  have hlabs : labs ≠ [] := by
    intro h
    rw [h] at hlen
    simp only [List.length_nil] at hlen
    exact hne (List.eq_nil_of_length_eq_zero hlen)
  have hdne : nearestDists rgb labs method ≠ [] := by
    intro h
    rw [h] at hdlen
    exact hlabs (List.eq_nil_of_length_eq_zero hdlen.symm)
  have hk0 : argminList (nearestDists rgb labs method) <
      (nearestDists rgb labs method).length :=
    argminList_lt_length _ hdne
  have hk : argminList (nearestDists rgb labs method) < entries.length := by
    omega
  refine ⟨argminList (nearestDists rgb labs method), hk, ?_, ?_, ?_⟩
  · simp only [nearest_tailwind]
    rw [List.isEmpty_eq_false_iff_exists_mem.mpr
        (List.exists_mem_of_ne_nil labs hlabs),
      List.get?_eq_get hk, List.get?_eq_get hk0,
      List.getD_eq_getElem _ _ hk0]
    rfl
  · intro j hj
    exact argminList_le 0 _ j (by omega)
  · intro j hj
    exact argminList_first 0 _ j hj

/-- Witness for C7: a two-entry palette queried with the DE76 metric. -/
theorem nearest_tailwind_min_first_witness :
    ([⟨"red".toList, 500, "#ef4444".toList⟩,
        ⟨"blue".toList, 500, "#3b82f6".toList⟩] : List TWEntry) ≠ [] ∧
      ∃ k, ∃ hk : k < ([⟨"red".toList, 500, "#ef4444".toList⟩,
          ⟨"blue".toList, 500, "#3b82f6".toList⟩] : List TWEntry).length,
        nearest_tailwind (10, 20, 30)
            [⟨"red".toList, 500, "#ef4444".toList⟩,
              ⟨"blue".toList, 500, "#3b82f6".toList⟩]
            [⟨50, 10, 10⟩, ⟨40, -5, 3⟩] "DE76" =
          some ⟨(([⟨"red".toList, 500, "#ef4444".toList⟩,
              ⟨"blue".toList, 500, "#3b82f6".toList⟩] : List TWEntry).get
                ⟨k, hk⟩).name,
            (([⟨"red".toList, 500, "#ef4444".toList⟩,
              ⟨"blue".toList, 500, "#3b82f6".toList⟩] : List TWEntry).get
                ⟨k, hk⟩).shade,
            (([⟨"red".toList, 500, "#ef4444".toList⟩,
              ⟨"blue".toList, 500, "#3b82f6".toList⟩] : List TWEntry).get
                ⟨k, hk⟩).hex,
            (nearestDists (10, 20, 30) [⟨50, 10, 10⟩, ⟨40, -5, 3⟩] "DE76").getD
              k 0⟩ ∧
        (∀ j < ([⟨(50 : ℝ), (10 : ℝ), (10 : ℝ)⟩,
            ⟨(40 : ℝ), (-5 : ℝ), (3 : ℝ)⟩] : List Lab).length,
          (nearestDists (10, 20, 30) [⟨50, 10, 10⟩, ⟨40, -5, 3⟩] "DE76").getD
              k 0 ≤
            (nearestDists (10, 20, 30) [⟨50, 10, 10⟩, ⟨40, -5, 3⟩] "DE76").getD
              j 0) ∧
        (∀ j < k,
          (nearestDists (10, 20, 30) [⟨50, 10, 10⟩, ⟨40, -5, 3⟩] "DE76").getD
              k 0 <
            (nearestDists (10, 20, 30) [⟨50, 10, 10⟩, ⟨40, -5, 3⟩] "DE76").getD
              j 0) :=
  ⟨by simp,
    nearest_tailwind_min_first (10, 20, 30)
      [⟨"red".toList, 500, "#ef4444".toList⟩,
        ⟨"blue".toList, 500, "#3b82f6".toList⟩]
      [⟨50, 10, 10⟩, ⟨40, -5, 3⟩] "DE76" (by simp) (by simp)⟩

/-! #### Lab conversion ingestion (claim C8) -/

/-- C8 (amended): the conversion never rejects a channel; `astype(np.uint8)`
silently reduces every integer channel modulo 256, so any input is processed
exactly as its mod-256 reduction. -/
theorem rgb_to_lab_wraps_mod256 (r g b : ℤ) :
    rgb_to_lab (r, g, b) = rgb_to_lab (r % 256, g % 256, b % 256) := by
  unfold rgb_to_lab toUint8
  simp only [Int.emod_emod_of_dvd _ (dvd_refl 256)]

/-- C8 (counterexample to the claim as stated): the out-of-range channel 300
is not rejected — the conversion silently returns the same Lab value as for
the in-range input 44 (300 mod 256). -/
theorem rgb_to_lab_accepts_out_of_range :
    rgb_to_lab (300, 0, 0) = rgb_to_lab (44, 0, 0) ∧ ¬((300 : ℤ) ≤ 255) := by
  constructor
  · norm_num [rgb_to_lab, toUint8]
  · decide

/-! #### Lab conversion range (claim C1) -/

lemma gammaExpand_mem (u : ℚ) (h0 : 0 ≤ u) (h1 : u ≤ 1) :
    0 ≤ gammaExpand u ∧ gammaExpand u ≤ 1 := by
  unfold gammaExpand
  split_ifs with h
  · constructor
    · have hq : (0 : ℚ) ≤ u / 12.92 := by positivity
      exact_mod_cast hq
    · have hq : (u / 12.92 : ℚ) ≤ 1 := by
        rw [div_le_one (by norm_num)]
        linarith
      exact_mod_cast hq
  · have hbase0 : (0 : ℝ) ≤ (((u + 0.055) / 1.055 : ℚ) : ℝ) := by
      have hq : (0 : ℚ) ≤ (u + 0.055) / 1.055 := by positivity
      exact_mod_cast hq
    refine ⟨Real.rpow_nonneg hbase0 _, ?_⟩
    apply Real.rpow_le_one hbase0
    · have hq : ((u + 0.055) / 1.055 : ℚ) ≤ 1 := by
        rw [div_le_one (by norm_num)]
        linarith
      exact_mod_cast hq
    · norm_num

lemma cbrt_lower (Y : ℝ) (h0 : 0 ≤ Y) (h : Y > 0.008856) :
    (0.2 : ℝ) < Y ^ ((1 : ℝ) / 3) := by
  have ht0 : 0 ≤ Y ^ ((1 : ℝ) / 3) := Real.rpow_nonneg h0 _
  have hcube : (Y ^ ((1 : ℝ) / 3)) ^ (3 : ℕ) = Y := by
    have h1 : (Y ^ ((1 : ℝ) / 3)) ^ ((3 : ℕ) : ℝ) = Y ^ (((1 : ℝ) / 3) * 3) :=
      (Real.rpow_mul h0 _ _).symm
    rw [Real.rpow_natCast] at h1
    rw [h1]
    norm_num
  by_contra hle
  push_neg at hle
  have : (Y ^ ((1 : ℝ) / 3)) ^ (3 : ℕ) ≤ (0.2 : ℝ) ^ (3 : ℕ) :=
    pow_le_pow_left₀ ht0 hle 3
  rw [hcube] at this
  norm_num at this
  linarith

lemma cbrt_upper (Y : ℝ) (h0 : 0 ≤ Y) (h1 : Y ≤ 1) :
    Y ^ ((1 : ℝ) / 3) ≤ 1 :=
  Real.rpow_le_one h0 h1 (by norm_num)

/-- C1 (amended): for every valid sRGB color, the L channel the conversion
returns lies in [0,255] — it is the OpenCV 8-bit encoding L*·255/100 of an
L* in [0,100], not L* itself. -/
theorem rgb_to_lab_L_range (r g b : ℤ)
    (hr0 : 0 ≤ r) (hr1 : r ≤ 255) (hg0 : 0 ≤ g) (hg1 : g ≤ 255)
    (hb0 : 0 ≤ b) (hb1 : b ≤ 255) :
    0 ≤ (rgb_to_lab (r, g, b)).L ∧ (rgb_to_lab (r, g, b)).L ≤ 255 := by
  have hmr : toUint8 r = r := Int.emod_eq_of_lt hr0 (by omega)
  have hmg : toUint8 g = g := Int.emod_eq_of_lt hg0 (by omega)
  have hmb : toUint8 b = b := Int.emod_eq_of_lt hb0 (by omega)
  unfold rgb_to_lab
  rw [hmr, hmg, hmb]
  have hR := gammaExpand_mem ((r : ℚ) / 255)
    (by positivity) (by rw [div_le_one (by norm_num)]; exact_mod_cast hr1)
  have hG := gammaExpand_mem ((g : ℚ) / 255)
    (by positivity) (by rw [div_le_one (by norm_num)]; exact_mod_cast hg1)
  have hB := gammaExpand_mem ((b : ℚ) / 255)
    (by positivity) (by rw [div_le_one (by norm_num)]; exact_mod_cast hb1)
  simp only [rgb_to_lab_core]
  set R := gammaExpand ((r : ℚ) / 255) with hRdef
  set G := gammaExpand ((g : ℚ) / 255) with hGdef
  set B := gammaExpand ((b : ℚ) / 255) with hBdef
  set Y : ℝ := 0.212671 * R + 0.715160 * G + 0.072169 * B with hYdef
  have hY0 : 0 ≤ Y := by rw [hYdef]; nlinarith [hR.1, hG.1, hB.1]
  have hY1 : Y ≤ 1 := by rw [hYdef]; nlinarith [hR.2, hG.2, hB.2]
  split_ifs with hbr
  · have hl := cbrt_lower Y hY0 hbr
    have hu := cbrt_upper Y hY0 hY1
    constructor
    · nlinarith
    · nlinarith
  · push_neg at hbr
    constructor
    · nlinarith
    · nlinarith

/-- Witness for the amended C1 range theorem at the color (12, 34, 56). -/
theorem rgb_to_lab_L_range_witness :
    ((0 : ℤ) ≤ 12 ∧ (12 : ℤ) ≤ 255) ∧
      (0 ≤ (rgb_to_lab (12, 34, 56)).L ∧ (rgb_to_lab (12, 34, 56)).L ≤ 255) :=
  ⟨⟨by decide, by decide⟩,
    rgb_to_lab_L_range 12 34 56 (by decide) (by decide) (by decide) (by decide)
      (by decide) (by decide)⟩

/-- C1 (counterexample to the claim as stated): at pure white the conversion
returns L = 255 (the OpenCV 8-bit encoding 100·255/100), outside the claimed
L* range [0,100]; the a and b channels come back offset to the encoding
midpoint 128. -/
theorem rgb_to_lab_white_out_of_claimed_range :
    (rgb_to_lab (255, 255, 255)).L = 255 ∧
      ¬((rgb_to_lab (255, 255, 255)).L ≤ 100) ∧
      (rgb_to_lab (255, 255, 255)).a = 128 ∧
      (rgb_to_lab (255, 255, 255)).b = 128 := by
  have hg1 : gammaExpand 1 = 1 := by
    unfold gammaExpand
    rw [if_neg (by norm_num)]
    rw [show ((1 : ℚ) + 0.055) / 1.055 = 1 by norm_num]
    rw [Rat.cast_one, Real.one_rpow]
  have hlabF1 : labF 1 = 1 := by
    unfold labF
    rw [if_pos (by norm_num), Real.one_rpow]
  have hcast : rgb_to_lab (255, 255, 255) = rgb_to_lab_core (255, 255, 255) := by
    unfold rgb_to_lab toUint8
    norm_num
  have hcore : rgb_to_lab_core (255, 255, 255) = ⟨255, 128, 128⟩ := by
    simp only [rgb_to_lab_core]
    rw [show ((255, 255, 255) : ℚ × ℚ × ℚ).1 / 255 = (1 : ℚ) by norm_num]
    rw [hg1]
    rw [show (0.212671 * (1 : ℝ) + 0.715160 * 1 + 0.072169 * 1) = 1 by norm_num]
    rw [if_pos (by norm_num : (1 : ℝ) > 0.008856), Real.one_rpow]
    rw [show ((0.412453 * (1 : ℝ) + 0.357580 * 1 + 0.180423 * 1) / 0.950456) = 1
      by norm_num]
    rw [show ((0.019334 * (1 : ℝ) + 0.119193 * 1 + 0.950227 * 1) / 1.088754) = 1
      by norm_num]
    rw [hlabF1]
    norm_num
  rw [hcast, hcore]
  norm_num

/-! #### CIEDE2000 symmetry (claim C4) -/

lemma Gterm_symm (p q : Lab) : Gterm q p = Gterm p q := by
  simp only [Gterm]
  rw [add_comm (Cab q)]

lemma Cpbar_symm (p q : Lab) : Cpbar q p = Cpbar p q := by
  unfold Cpbar
  ring

lemma SL_symm (p q : Lab) : SL q p = SL p q := by
  unfold SL
  rw [add_comm q.L]

lemma SC_symm (p q : Lab) : SC q p = SC p q := by
  unfold SC
  rw [Cpbar_symm]

lemma hbar_symm (p q : Lab) : hbar q p = hbar p q := by
  simp only [hbar]
  rw [add_comm (hprime q p), abs_sub_comm (hprime q p)]

lemma Tterm_symm (p q : Lab) : Tterm q p = Tterm p q := by
  unfold Tterm
  rw [hbar_symm]

lemma SH_symm (p q : Lab) : SH q p = SH p q := by
  unfold SH
  rw [Cpbar_symm, Tterm_symm]

lemma dTheta_symm (p q : Lab) : dTheta q p = dTheta p q := by
  unfold dTheta
  rw [hbar_symm]

lemma RC_symm (p q : Lab) : RC q p = RC p q := by
  unfold RC
  rw [Cpbar_symm]

lemma RT_symm (p q : Lab) : RT q p = RT p q := by
  unfold RT
  rw [dTheta_symm, RC_symm]

lemma wrapPi_neg (d : ℝ) : wrapPi (-d) = -wrapPi d := by
  have hpi := Real.pi_pos
  simp only [wrapPi]
  split_ifs <;> linarith

lemma dhp_antisymm (p q : Lab) : dhp q p = -dhp p q := by
  unfold dhp
  rw [show hprime p q - hprime q p = -(hprime q p - hprime p q) from by ring,
    wrapPi_neg]

lemma dHp_antisymm (p q : Lab) : dHp q p = -dHp p q := by
  unfold dHp
  rw [dhp_antisymm p q, mul_comm (Cprime q p), neg_div, Real.sin_neg]
  ring

lemma dE00arg_symm (p q : Lab) : dE00arg q p = dE00arg p q := by
  unfold dE00arg
  rw [SL_symm p q, SC_symm p q, SH_symm p q, RT_symm p q, dHp_antisymm p q]
  ring

/-- C4: the CIEDE2000 distance is symmetric — `deltaE2000` of A against B
equals `deltaE2000` of B against A (so the vectorized N by M matrix of the
source is the transpose of the M by N matrix with the batches swapped). -/
theorem deltaE2000_symm (p q : Lab) : deltaE2000 p q = deltaE2000 q p := by
  unfold deltaE2000
  rw [dE00arg_symm]

/-! #### CIEDE2000 and ΔE76 positivity (claim C3) -/

lemma Cprime_nonneg (p q : Lab) : 0 ≤ Cprime p q := Real.sqrt_nonneg _

lemma Cpbar_nonneg (p q : Lab) : 0 ≤ Cpbar p q := by
  unfold Cpbar
  linarith [Cprime_nonneg p q, Cprime_nonneg q p]

lemma SL_ge_one (p q : Lab) : 1 ≤ SL p q := by
  unfold SL
  have h1 : (0 : ℝ) ≤ 0.015 * ((p.L + q.L) / 2 - 50) ^ 2 := by positivity
  have h2 : (0 : ℝ) ≤ Real.sqrt (20 + ((p.L + q.L) / 2 - 50) ^ 2) :=
    Real.sqrt_nonneg _
  have h3 := div_nonneg h1 h2
  linarith

lemma SC_ge_one (p q : Lab) : 1 ≤ SC p q := by
  unfold SC
  nlinarith [Cpbar_nonneg p q]

lemma Tterm_pos (p q : Lab) : 0.07 ≤ Tterm p q := by
  unfold Tterm
  have c1 := Real.cos_le_one (hbar p q - deg2rad 30)
  have c2 := Real.neg_one_le_cos (2 * hbar p q)
  have c3 := Real.neg_one_le_cos (3 * hbar p q + deg2rad 6)
  have c4 := Real.cos_le_one (4 * hbar p q - deg2rad 63)
  linarith

lemma SH_ge_one (p q : Lab) : 1 ≤ SH p q := by
  unfold SH
  have h := mul_nonneg (mul_nonneg (by norm_num : (0 : ℝ) ≤ 0.015)
    (Cpbar_nonneg p q)) (le_trans (by norm_num) (Tterm_pos p q))
  linarith

lemma RC_bounds (p q : Lab) : 0 ≤ RC p q ∧ RC p q < 2 := by
  unfold RC
  constructor
  · positivity
  · have h7 : (0 : ℝ) ≤ Cpbar p q ^ 7 := pow_nonneg (Cpbar_nonneg p q) 7
    have hd : (0 : ℝ) < Cpbar p q ^ 7 + 25 ^ 7 := by positivity
    have hr : Cpbar p q ^ 7 / (Cpbar p q ^ 7 + 25 ^ 7) < 1 := by
      rw [div_lt_one hd]
      nlinarith
    have hs : Real.sqrt (Cpbar p q ^ 7 / (Cpbar p q ^ 7 + 25 ^ 7)) < 1 := by
      have h := Real.sqrt_lt_sqrt (div_nonneg h7 (le_of_lt hd)) hr
      rwa [Real.sqrt_one] at h
    linarith

lemma RT_abs_lt_two (p q : Lab) : |RT p q| < 2 := by
  unfold RT
  rw [abs_mul, abs_neg]
  have hsin := Real.abs_sin_le_one (2 * dTheta p q)
  obtain ⟨hrc0, hrc2⟩ := RC_bounds p q
  rw [abs_of_nonneg hrc0]
  calc |Real.sin (2 * dTheta p q)| * RC p q
      ≤ 1 * RC p q := mul_le_mul_of_nonneg_right hsin hrc0
    _ = RC p q := one_mul _
    _ < 2 := hrc2

lemma quad_nonneg (r x y z : ℝ) (hr : |r| ≤ 2) :
    0 ≤ z ^ 2 + x ^ 2 + y ^ 2 + r * x * y := by
  obtain ⟨h1, h2⟩ := abs_le.mp hr
  have k1 : 0 ≤ (2 - r) * (x - y) ^ 2 := mul_nonneg (by linarith) (sq_nonneg _)
  have k2 : 0 ≤ (2 + r) * (x + y) ^ 2 := mul_nonneg (by linarith) (sq_nonneg _)
  nlinarith [sq_nonneg z]

lemma quad_eq_zero (r x y z : ℝ) (hr : |r| < 2)
    (h : z ^ 2 + x ^ 2 + y ^ 2 + r * x * y = 0) : z = 0 ∧ x = 0 ∧ y = 0 := by
  obtain ⟨h1, h2⟩ := abs_lt.mp hr
  have k1 : 0 ≤ (2 - r) * (x - y) ^ 2 := mul_nonneg (by linarith) (sq_nonneg _)
  have k2 : 0 ≤ (2 + r) * (x + y) ^ 2 := mul_nonneg (by linarith) (sq_nonneg _)
  have hz2 : z ^ 2 ≤ 0 := by nlinarith
  have hz : z = 0 :=
    (pow_eq_zero_iff (two_ne_zero)).mp (le_antisymm hz2 (sq_nonneg z))
  have hd1 : x - y = 0 := by
    by_contra hne
    have hpos : 0 < (x - y) ^ 2 := by positivity
    have h2r : 0 < 2 - r := by linarith
    nlinarith [mul_pos h2r hpos, sq_nonneg z]
  have hd2 : x + y = 0 := by
    by_contra hne
    have hpos : 0 < (x + y) ^ 2 := by positivity
    have h2r : 0 < 2 + r := by linarith
    nlinarith [mul_pos h2r hpos, sq_nonneg z]
  exact ⟨hz, by linarith, by linarith⟩

lemma Gterm_nonneg (p q : Lab) : 0 ≤ Gterm p q := by
  simp only [Gterm]
  have hcb : (0 : ℝ) ≤ (Cab p + Cab q) / 2 := by
    have := Real.sqrt_nonneg (p.a ^ 2 + p.b ^ 2)
    have := Real.sqrt_nonneg (q.a ^ 2 + q.b ^ 2)
    unfold Cab
    linarith
  have hd : (0 : ℝ) < ((Cab p + Cab q) / 2) ^ 7 + 25 ^ 7 := by positivity
  have hle : ((Cab p + Cab q) / 2) ^ 7 / (((Cab p + Cab q) / 2) ^ 7 + 25 ^ 7) ≤ 1 := by
    rw [div_le_one hd]
    nlinarith
  have hs := Real.sqrt_le_one.mpr hle
  linarith

lemma one_add_Gterm_pos (p q : Lab) : 0 < 1 + Gterm p q := by
  linarith [Gterm_nonneg p q]

lemma Cprime_eq_zero_iff (p q : Lab) :
    Cprime p q = 0 ↔ aprime p q = 0 ∧ p.b = 0 := by
  unfold Cprime
  rw [Real.sqrt_eq_zero (by positivity)]
  constructor
  · intro h
    have h1 : aprime p q ^ 2 = 0 := by nlinarith [sq_nonneg (aprime p q), sq_nonneg p.b]
    have h2 : p.b ^ 2 = 0 := by nlinarith [sq_nonneg (aprime p q), sq_nonneg p.b]
    exact ⟨(pow_eq_zero_iff two_ne_zero).mp h1, (pow_eq_zero_iff two_ne_zero).mp h2⟩
  · rintro ⟨h1, h2⟩
    rw [h1, h2]
    norm_num

lemma atan2p_mem (y x : ℝ) : 0 ≤ atan2p y x ∧ atan2p y x < 2 * Real.pi := by
  simp only [atan2p]
  have h1 := Complex.neg_pi_lt_arg ⟨x, y⟩
  have h2 := Complex.arg_le_pi ⟨x, y⟩
  have hpi := Real.pi_pos
  split_ifs with h <;> constructor <;> linarith

lemma hprime_mem (p q : Lab) : 0 ≤ hprime p q ∧ hprime p q < 2 * Real.pi :=
  atan2p_mem _ _

lemma wrapPi_bounds (d : ℝ) (h1 : -(2 * Real.pi) < d) (h2 : d < 2 * Real.pi) :
    -Real.pi ≤ wrapPi d ∧ wrapPi d ≤ Real.pi := by
  have hpi := Real.pi_pos
  simp only [wrapPi]
  split_ifs <;> constructor <;> linarith

lemma wrapPi_eq_zero (d : ℝ) (h1 : -(2 * Real.pi) < d) (h2 : d < 2 * Real.pi)
    (h : wrapPi d = 0) : d = 0 := by
  have hpi := Real.pi_pos
  simp only [wrapPi] at h
  split_ifs at h <;> linarith

lemma wrapPi_zero : wrapPi 0 = 0 := by
  have hpi := Real.pi_pos
  simp only [wrapPi]
  split_ifs <;> linarith

lemma dHp_self (p : Lab) : dHp p p = 0 := by
  unfold dHp dhp
  rw [sub_self, wrapPi_zero]
  norm_num

lemma atan2p_eq_arg_eq (y1 x1 y2 x2 : ℝ) (h : atan2p y1 x1 = atan2p y2 x2) :
    Complex.arg ⟨x1, y1⟩ = Complex.arg ⟨x2, y2⟩ := by
  simp only [atan2p] at h
  have a1 := Complex.neg_pi_lt_arg (⟨x1, y1⟩ : ℂ)
  have a2 := Complex.arg_le_pi (⟨x1, y1⟩ : ℂ)
  have b1 := Complex.neg_pi_lt_arg (⟨x2, y2⟩ : ℂ)
  have b2 := Complex.arg_le_pi (⟨x2, y2⟩ : ℂ)
  have hpi := Real.pi_pos
  split_ifs at h <;> linarith

lemma eq_of_Cprime_hprime_eq (p q : Lab) (hC : Cprime p q = Cprime q p)
    (hh : hprime p q = hprime q p) : aprime p q = aprime q p ∧ p.b = q.b := by
  unfold hprime at hh
  have harg := atan2p_eq_arg_eq p.b (aprime p q) q.b (aprime q p) hh
  have habs : Complex.abs ⟨aprime p q, p.b⟩ = Complex.abs ⟨aprime q p, q.b⟩ := by
    rw [Complex.abs_apply, Complex.abs_apply, Complex.normSq_mk, Complex.normSq_mk,
      show aprime p q * aprime p q + p.b * p.b = aprime p q ^ 2 + p.b ^ 2 from by ring,
      show aprime q p * aprime q p + q.b * q.b = aprime q p ^ 2 + q.b ^ 2 from by ring]
    exact hC
  have heq := Complex.ext_abs_arg habs harg
  exact ⟨congrArg Complex.re heq, congrArg Complex.im heq⟩

/-- C3: both distance metrics are non-negative and vanish exactly on
identical Lab pairs; for CIEDE2000 additionally the radicand of the final
square root is non-negative, so the Python `np.sqrt` never sees a negative
radicand (no NaN). -/
theorem deltaE_nonneg_zero_iff (p q : Lab) :
    (0 ≤ deltaE76 p q ∧ (deltaE76 p q = 0 ↔ p = q)) ∧
      (0 ≤ dE00arg p q ∧ 0 ≤ deltaE2000 p q ∧ (deltaE2000 p q = 0 ↔ p = q)) := by
  have hRT := RT_abs_lt_two p q
  have harg : 0 ≤ dE00arg p q := by
    unfold dE00arg
    exact quad_nonneg (RT p q) ((Cprime p q - Cprime q p) / SC p q)
      (dHp p q / SH p q) ((p.L - q.L) / SL p q) (le_of_lt hRT)
  refine ⟨⟨Real.sqrt_nonneg _, ?_⟩, harg, Real.sqrt_nonneg _, ?_⟩
  · unfold deltaE76
    constructor
    · intro h
      have h0 : (p.L - q.L) ^ 2 + (p.a - q.a) ^ 2 + (p.b - q.b) ^ 2 = 0 := by
        have h1 := Real.sqrt_eq_zero'.mp h
        nlinarith [sq_nonneg (p.L - q.L), sq_nonneg (p.a - q.a), sq_nonneg (p.b - q.b)]
      have hL : p.L - q.L = 0 := by
        have : (p.L - q.L) ^ 2 = 0 := by
          nlinarith [sq_nonneg (p.L - q.L), sq_nonneg (p.a - q.a), sq_nonneg (p.b - q.b)]
        exact (pow_eq_zero_iff two_ne_zero).mp this
      have ha : p.a - q.a = 0 := by
        have : (p.a - q.a) ^ 2 = 0 := by
          nlinarith [sq_nonneg (p.L - q.L), sq_nonneg (p.a - q.a), sq_nonneg (p.b - q.b)]
        exact (pow_eq_zero_iff two_ne_zero).mp this
      have hb : p.b - q.b = 0 := by
        have : (p.b - q.b) ^ 2 = 0 := by
          nlinarith [sq_nonneg (p.L - q.L), sq_nonneg (p.a - q.a), sq_nonneg (p.b - q.b)]
        exact (pow_eq_zero_iff two_ne_zero).mp this
      exact Lab.ext (sub_eq_zero.mp hL) (sub_eq_zero.mp ha) (sub_eq_zero.mp hb)
    · intro h
      rw [h]
      simp
  · constructor
    · intro h
      have harg0 : dE00arg p q = 0 :=
        le_antisymm (Real.sqrt_eq_zero'.mp h) harg
      have hquad := quad_eq_zero (RT p q) ((Cprime p q - Cprime q p) / SC p q)
        (dHp p q / SH p q) ((p.L - q.L) / SL p q) hRT (by
          have := harg0
          unfold dE00arg at this
          linarith)
      obtain ⟨hz, hx, hy⟩ := hquad
      have hSL := SL_ge_one p q
      have hSC := SC_ge_one p q
      have hSH := SH_ge_one p q
      have hL : p.L = q.L := by
        rcases div_eq_zero_iff.mp hz with h0 | h0
        · exact sub_eq_zero.mp h0
        · linarith
      have hCeq : Cprime p q = Cprime q p := by
        rcases div_eq_zero_iff.mp hx with h0 | h0
        · exact sub_eq_zero.mp h0
        · linarith
      have hdHp0 : dHp p q = 0 := by
        rcases div_eq_zero_iff.mp hy with h0 | h0
        · exact h0
        · linarith
      by_cases hC0 : Cprime p q = 0
      · have hC0q : Cprime q p = 0 := by rw [← hCeq]; exact hC0
        obtain ⟨hap, hbp⟩ := (Cprime_eq_zero_iff p q).mp hC0
        obtain ⟨haq, hbq⟩ := (Cprime_eq_zero_iff q p).mp hC0q
        have hpa : p.a = 0 := by
          rcases mul_eq_zero.mp hap with h0 | h0
          · linarith [one_add_Gterm_pos p q]
          · exact h0
        have hqa : q.a = 0 := by
          rcases mul_eq_zero.mp haq with h0 | h0
          · linarith [one_add_Gterm_pos q p]
          · exact h0
        exact Lab.ext hL (by rw [hpa, hqa]) (by rw [hbp, hbq])
      · have hCpos : 0 < Cprime p q :=
          lt_of_le_of_ne (Cprime_nonneg p q) (Ne.symm hC0)
        have hC2pos : 0 < Cprime q p := hCeq ▸ hCpos
        have hsin : Real.sin (dhp p q / 2) = 0 := by
          unfold dHp at hdHp0
          have hspos : 0 < Real.sqrt (Cprime p q * Cprime q p) :=
            Real.sqrt_pos.mpr (mul_pos hCpos hC2pos)
          rcases mul_eq_zero.mp hdHp0 with h0 | h0
          · rcases mul_eq_zero.mp h0 with h2 | h3
            · norm_num at h2
            · linarith
          · exact h0
        obtain ⟨hpm1, hpm2⟩ := hprime_mem p q
        obtain ⟨hqm1, hqm2⟩ := hprime_mem q p
        have hpi := Real.pi_pos
        have hdb := wrapPi_bounds (hprime q p - hprime p q)
          (by linarith) (by linarith)
        have hhalf : dhp p q / 2 = 0 := by
          apply (Real.sin_eq_zero_iff_of_lt_of_lt ?_ ?_).mp hsin
          · unfold dhp
            linarith [hdb.1]
          · unfold dhp
            linarith [hdb.2]
        have hdhp0 : dhp p q = 0 := by linarith
        have hheq : hprime p q = hprime q p := by
          have h0 := wrapPi_eq_zero (hprime q p - hprime p q)
            (by linarith) (by linarith) (by unfold dhp at hdhp0; exact hdhp0)
          linarith
        obtain ⟨haeq, hbeq⟩ := eq_of_Cprime_hprime_eq p q hCeq hheq
        have hpa : p.a = q.a := by
          unfold aprime at haeq
          rw [Gterm_symm p q] at haeq
          exact mul_left_cancel₀ (ne_of_gt (one_add_Gterm_pos p q)) haeq
        exact Lab.ext hL hpa hbeq
    · intro h
      rw [h]
      unfold deltaE2000
      have h0 : dE00arg q q = 0 := by
        unfold dE00arg
        rw [dHp_self, sub_self, sub_self]
        ring
      rw [h0, Real.sqrt_zero]

end ColorOps
